import Mathlib

/-!
Verification development for the `undag` interpreter: a shallow embedding of
`src/interp.rs`, `src/main.rs` and `src/tree.rs`.

Conventions of the embedding:
* Rust `HashMap<String, Val>` tables are association lists with
  first-occurrence lookup and in-place replacing insert (keys stay unique
  when built through the operations, and lookup/insert/remove agree with the
  hash-map semantics).
* Commit identities (`git::Oid`) are `Nat`; a repository is a parent map
  together with the `refs/replace/<id>` reference map.
* Rust loops that the source runs without a bound are given explicit fuel;
  a `none` result means the source loop has not finished within that fuel,
  and `none` for every fuel means the source loop never returns.
* `i64` arithmetic follows release-profile Rust semantics: `+`, `-`, `*`
  wrap modulo 2^64 into the signed range, while `/` and `%` always panic on
  a zero divisor (and on `i64::MIN / -1`).  A Rust panic is modelled by the
  dedicated outcome `Outcome.crashed`, distinct from the reportable error
  outcome `Outcome.err` that the interpreter wraps with the commit id.
-/

/-- `Val` from `interp.rs`: Int / Str / Table. -/
inductive Val where
  | int (n : Int)
  | str (s : String)
  | table (t : List (String × Val))

/-- `type Table = HashMap<String, Val>` from `interp.rs`. -/
abbrev Table := List (String × Val)

/-- `HashMap::get`: first-occurrence association lookup. -/
def Table.lookupT : Table → String → Option Val
  | [], _ => none
  | (k, v) :: rest, key => if k = key then some v else Table.lookupT rest key

/-- `HashMap::insert` (also `entry(..).or_insert` followed by overwrite):
replace the binding of `key` in place, or append it. -/
def Table.insertT : Table → String → Val → Table
  | [], key, v => [(key, v)]
  | (k, w) :: rest, key, v =>
    if k = key then (k, v) :: rest else (k, w) :: Table.insertT rest key v

/-- `HashMap::remove` (value dropped). -/
def Table.removeT : Table → String → Table
  | [], _ => []
  | (k, w) :: rest, key => if k = key then rest else (k, w) :: Table.removeT rest key

/-- `HashMap::contains_key`. -/
def Table.containsT (t : Table) (key : String) : Bool :=
  (Table.lookupT t key).isSome

/-- Rust `str::split('/')` on the character list: always at least one
(possibly empty) segment. -/
def splitChars (sep : Char) : List Char → List (List Char)
  | [] => [[]]
  | c :: rest =>
    match splitChars sep rest with
    | [] => [[]]
    | seg :: segs => if c = sep then [] :: seg :: segs else (c :: seg) :: segs

/-- The source repeatedly does `let mut subs = var.split('/');
let tail = subs.next_back().unwrap();`: the interior segments and the tail. -/
def splitPath (s : String) : List String × String :=
  let segs := (splitChars '/' s.toList).map (fun l => String.mk l)
  (segs.dropLast, segs.getLastD "")

/-- `Display for Val`: Int in decimal, Str verbatim, Table as `<table>`. -/
def Val.render : Val → String
  | .int n => toString n
  | .str s => s
  | .table _ => "<table>"

/-- `Get` from `interp.rs`: an inline value or a `$`-variable path. -/
inductive Get where
  | val (v : Val)
  | var (s : String)

/-- The variable-path walk of `Get::val`: each interior segment must be a
Table (`tried to access non-table as table`), the tail is looked up
(`undefined symbol` when absent).  `none` is either failure. -/
def getPathSegs : Table → List String → String → Option Val
  | t, [], tail => Table.lookupT t tail
  | t, s :: rest, tail =>
    match Table.lookupT t s with
    | some (.table sub) => getPathSegs sub rest tail
    | some _ => none
    | none => none

/-- `Get::val` from `interp.rs`. -/
def Get.valIn : Get → Table → Option Val
  | .val v, _ => some v
  | .var s, t =>
    match splitPath s with
    | (ints, tail) => getPathSegs t ints tail

/-- `Instance::set` walk over the interior segments: missing interiors are
auto-created empty (`entry(..).or_insert_with(Table::new)`), a non-Table
interior bails.  The returned table reflects all mutations performed before
a bail (the source mutates in place), the Bool is success. -/
def setSegs : Table → List String → String → Val → Table × Bool
  | t, [], tail, v => (Table.insertT t tail v, true)
  | t, s :: rest, tail, v =>
    match Table.lookupT t s with
    | none =>
      match setSegs [] rest tail v with
      | (sub, ok) => (Table.insertT t s (.table sub), ok)
    | some (.table sub) =>
      match setSegs sub rest tail v with
      | (sub2, ok) => (Table.insertT t s (.table sub2), ok)
    | some _ => (t, false)

/-- `Instance::set` on a path string. -/
def setStr (t : Table) (var : String) (v : Val) : Table × Bool :=
  match splitPath var with
  | (ints, tail) => setSegs t ints tail v

/-- The `Op::Del` walk: identical interior walk to `Instance::set`
(auto-creating missing interiors!), then `remove` of the tail. -/
def delSegs : Table → List String → String → Table × Bool
  | t, [], tail => (Table.removeT t tail, true)
  | t, s :: rest, tail =>
    match Table.lookupT t s with
    | none =>
      match delSegs [] rest tail with
      | (sub, ok) => (Table.insertT t s (.table sub), ok)
    | some (.table sub) =>
      match delSegs sub rest tail with
      | (sub2, ok) => (Table.insertT t s (.table sub2), ok)
    | some _ => (t, false)

/-- `Op::Del` on a path string. -/
def delStr (t : Table) (var : String) : Table × Bool :=
  match splitPath var with
  | (ints, tail) => delSegs t ints tail

/-- The `Op::Exists` walk: `contains_key` checks without creation; a missing
interior sets the flag false and breaks (`some false`), an existing
non-Table interior bails (`none`), otherwise the tail is tested. -/
def existsSegs : Table → List String → String → Option Bool
  | t, [], tail => some (Table.containsT t tail)
  | t, s :: rest, tail =>
    match Table.lookupT t s with
    | some (.table sub) => existsSegs sub rest tail
    | some _ => none
    | none => some false

/-- Outcome of executing one instruction: a new current-scope table, a
reportable error (`anyhow` error, wrapped with the commit id by `run`), or a
Rust panic aborting the process. -/
inductive Outcome where
  | ok (t : Table)
  | err
  | crashed

/-- Signed 64-bit wrap-around of an integer (release-profile overflow
semantics of Rust `i64` `+`, `-`, `*`). -/
def i64wrap (x : Int) : Int := (x + 2 ^ 63) % 2 ^ 64 - 2 ^ 63

/-- `|a, b| a + b` on `i64`. -/
def i64add (a b : Int) : Int := i64wrap (a + b)

/-- `|a, b| a - b` on `i64`. -/
def i64sub (a b : Int) : Int := i64wrap (a - b)

/-- `|a, b| a * b` on `i64`. -/
def i64mul (a b : Int) : Int := i64wrap (a * b)

/-- The 64-bit two's-complement bit pattern of an integer. -/
def toBits64 (x : Int) : Nat := (x % 2 ^ 64).toNat

/-- The signed value of a 64-bit two's-complement bit pattern. -/
def ofBits64 (n : Nat) : Int := if n < 2 ^ 63 then (n : Int) else (n : Int) - 2 ^ 64

/-- `|a, b| a & b` on `i64`: bitwise AND of the two's-complement patterns. -/
def i64and (a b : Int) : Int := ofBits64 (Nat.land (toBits64 a) (toBits64 b))

/-- `|a, b| a | b` on `i64`. -/
def i64or (a b : Int) : Int := ofBits64 (Nat.lor (toBits64 a) (toBits64 b))

/-- `|a, b| a ^ b` on `i64`. -/
def i64xor (a b : Int) : Int := ofBits64 (Nat.xor (toBits64 a) (toBits64 b))

/-- `|a, b| (a > b) as i64`. -/
def i64gt (a b : Int) : Int := if b < a then 1 else 0

/-- `|a, b| a / b` on `i64`: Rust truncated division; panics (`none`) when
the divisor is zero, or on the overflowing `i64::MIN / -1`. -/
def i64div (a b : Int) : Option Int :=
  if b = 0 ∨ (a = -(2 ^ 63) ∧ b = -1) then none else some (Int.tdiv a b)

/-- `|a, b| a % b` on `i64`: Rust truncated remainder; panics (`none`) when
the divisor is zero, or on `i64::MIN % -1`. -/
def i64mod (a b : Int) : Option Int :=
  if b = 0 ∨ (a = -(2 ^ 63) ∧ b = -1) then none else some (Int.tmod a b)

/-- `num_binop` from `Instance::exec`: evaluate `a` and `b`, require both
Int (`invalid args` otherwise), resolve the target path from `var`, apply
the closure (which may panic), store the Int result. -/
def numBinop (var a b : Get) (t : Table) (op : Int → Int → Option Int) : Outcome :=
  match a.valIn t, b.valIn t with
  | some (.int x), some (.int y) =>
    match var.valIn t with
    | none => .err
    | some vv =>
      match op x y with
      | none => .crashed
      | some r =>
        match setStr t (Val.render vv) (.int r) with
        | (t2, true) => .ok t2
        | (_, false) => .err
  | some _, some _ => .err
  | _, _ => .err

/-- `Op::Add` arm of `exec`. -/
def execAdd (var a b : Get) (t : Table) : Outcome :=
  numBinop var a b t (fun x y => some (i64add x y))

/-- `Op::Sub` arm of `exec`. -/
def execSub (var a b : Get) (t : Table) : Outcome :=
  numBinop var a b t (fun x y => some (i64sub x y))

/-- `Op::Mul` arm of `exec`. -/
def execMul (var a b : Get) (t : Table) : Outcome :=
  numBinop var a b t (fun x y => some (i64mul x y))

/-- `Op::And` arm of `exec`. -/
def execAnd (var a b : Get) (t : Table) : Outcome :=
  numBinop var a b t (fun x y => some (i64and x y))

/-- `Op::Or` arm of `exec`. -/
def execOr (var a b : Get) (t : Table) : Outcome :=
  numBinop var a b t (fun x y => some (i64or x y))

/-- `Op::Xor` arm of `exec`. -/
def execXor (var a b : Get) (t : Table) : Outcome :=
  numBinop var a b t (fun x y => some (i64xor x y))

/-- `Op::Gt` arm of `exec`. -/
def execGt (var a b : Get) (t : Table) : Outcome :=
  numBinop var a b t (fun x y => some (i64gt x y))

/-- `Op::Div` arm of `exec`. -/
def execDiv (var a b : Get) (t : Table) : Outcome :=
  numBinop var a b t i64div

/-- `Op::Mod` arm of `exec`. -/
def execMod (var a b : Get) (t : Table) : Outcome :=
  numBinop var a b t i64mod

/-- `Op::Exists` arm of `exec`: resolve the target path `var`, resolve the
symbol, walk `existsSegs`, then `set` Int 1 or 0. -/
def execExists (var symbol : Get) (t : Table) : Outcome :=
  match var.valIn t with
  | none => .err
  | some vv =>
    match symbol.valIn t with
    | none => .err
    | some sv =>
      match splitPath (Val.render sv) with
      | (ints, tail) =>
        match existsSegs t ints tail with
        | none => .err
        | some b =>
          match setStr t (Val.render vv) (.int (if b then 1 else 0)) with
          | (t2, true) => .ok t2
          | (_, false) => .err

/-- `Op::Set` arm of `exec`. -/
def execSet (var src : Get) (t : Table) : Outcome :=
  match var.valIn t with
  | none => .err
  | some vv =>
    match src.valIn t with
    | none => .err
    | some v =>
      match setStr t (Val.render vv) v with
      | (t2, true) => .ok t2
      | (_, false) => .err

/-- `Op::Del` arm of `exec`. -/
def execDel (var : Get) (t : Table) : Outcome :=
  match var.valIn t with
  | none => .err
  | some vv =>
    match delStr t (Val.render vv) with
    | (t2, true) => .ok t2
    | (_, false) => .err

/-- `std::io::BufRead::read_line`: take everything up to and including the
first newline, or the whole remaining input at end of file.  Returns the
line and the rest of stdin; no error is produced at end of file. -/
def readLineChars : List Char → List Char × List Char
  | [] => ([], [])
  | c :: rest =>
    if c = '\n' then ([c], rest)
    else
      match readLineChars rest with
      | (l, r) => (c :: l, r)

/-- The `Op::Inpln` post-processing: `s.pop();` unconditionally, then pop
once more if the string now ends with `'\r'`. -/
def inplnStore (s : List Char) : List Char :=
  let s1 := s.dropLast
  if s1.getLast? = some '\r' then s1.dropLast else s1

/-- Removing one trailing carriage return, used to state what `inplnStore`
computes. -/
def stripCR (s : List Char) : List Char :=
  if s.getLast? = some '\r' then s.dropLast else s

/-- `Op::Inpln` arm of `exec`: resolve the target path, read one line,
post-process, store it as a Str.  Returns the outcome and the rest of
stdin. -/
def execInpln (var : Get) (t : Table) (stdin : List Char) : Outcome × List Char :=
  match var.valIn t with
  | none => (.err, stdin)
  | some vv =>
    match readLineChars stdin with
    | (line, rest) =>
      match setStr t (Val.render vv) (.str (String.mk (inplnStore line))) with
      | (t2, true) => (.ok t2, rest)
      | (_, false) => (.err, rest)

/-- The precondition of claim C5: every interior segment of the path,
resolved stepwise from the scope, is absent or an existing Table (after an
absent segment everything below is a fresh empty table, so the rest is
vacuously fine). -/
def interiorsOkSegs : Table → List String → Bool
  | _, [] => true
  | t, s :: rest =>
    match Table.lookupT t s with
    | none => true
    | some (.table sub) => interiorsOkSegs sub rest
    | some _ => false

/-- C5 precondition on a path string. -/
def interiorsOkStr (t : Table) (var : String) : Bool :=
  interiorsOkSegs t (splitPath var).1

/-- Rust `str::parse::<i64>` digits accumulator: all characters must be
ASCII digits and at least one must be present (the caller checks
non-emptiness). -/
def digitsVal : List Char → Nat → Option Nat
  | [], acc => some acc
  | c :: rest, acc =>
    if c.isDigit then digitsVal rest (acc * 10 + (c.toNat - 48)) else none

/-- Rust `str::parse::<i64>`: optional sign, one or more digits, value in
the `i64` range. -/
def parseI64 (s : String) : Option Int :=
  match s.toList with
  | [] => none
  | '+' :: rest =>
    match rest with
    | [] => none
    | _ => (digitsVal rest 0).bind fun n =>
        if (n : Int) ≤ 2 ^ 63 - 1 then some (n : Int) else none
  | '-' :: rest =>
    match rest with
    | [] => none
    | _ => (digitsVal rest 0).bind fun n =>
        if (n : Int) ≤ 2 ^ 63 then some (-(n : Int)) else none
  | l => (digitsVal l 0).bind fun n =>
      if (n : Int) ≤ 2 ^ 63 - 1 then some (n : Int) else none

/-- `FromStr for Val`: a `#`-token is an Int literal, anything else a Str. -/
def valFromStr (s : String) : Option Val :=
  match s.toList with
  | '#' :: rest => (parseI64 (String.mk rest)).map .int
  | _ => some (.str s)

/-- `FromStr for Get`: a `$`-token is a variable path, else a value. -/
def parseGet (s : String) : Option Get :=
  match s.toList with
  | '$' :: rest => some (.var (String.mk rest))
  | _ => (valFromStr s).map .val

/-- `Op` from `interp.rs` (constructor names lightly renamed where the
source name is unavailable in Lean). -/
inductive Op where
  | nop
  | setv (var src : Get)
  | getv (var src : Get)
  | delv (var : Get)
  | existsv (var symbol : Get)
  | branch (tag : Get)
  | enter (table : Get)
  | exitv
  | matchv (var src : Get) (branches : List (Get × Get))
  | print (arg : Get)
  | println (arg : Get)
  | inpln (var : Get)
  | concat (var a b : Get)
  | chars (var s : Get)
  | eq (var a b : Get)
  | gt (var a b : Get)
  | add (var a b : Get)
  | sub (var a b : Get)
  | mul (var a b : Get)
  | div (var a b : Get)
  | modv (var a b : Get)
  | andv (var a b : Get)
  | orv (var a b : Get)
  | xorv (var a b : Get)

/-- `parse_args!` for one operand: parse the next token, error when it is
missing or invalid; any further tokens are left untouched. -/
def parse1 : List String → Option Get
  | t :: _ => parseGet t
  | _ => none

/-- `parse_args!` for two operands. -/
def parse2 : List String → Option (Get × Get)
  | t1 :: t2 :: _ =>
    (parseGet t1).bind fun a => (parseGet t2).map fun b => (a, b)
  | _ => none

/-- `parse_args!` for three operands. -/
def parse3 : List String → Option (Get × Get × Get)
  | t1 :: t2 :: t3 :: _ =>
    (parseGet t1).bind fun a =>
      (parseGet t2).bind fun b => (parseGet t3).map fun c => (a, b, c)
  | _ => none

/-- The `Op::Match` tail pairing: `enumerate`, partition into even and odd
positions, zip (the zip truncates, silently dropping an unpaired trailing
value token). -/
def matchPairs (toks : List String) : List (String × String) :=
  let idx := toks.enum
  let parts := idx.partition (fun p => p.1 % 2 = 0)
  (parts.1.map Prod.snd).zip (parts.2.map Prod.snd)

/-- Parsing of each `(val, branch)` pair of `Op::Match`. -/
def parsePairs : List (String × String) → Option (List (Get × Get))
  | [] => some []
  | (v, b) :: rest =>
    (parseGet v).bind fun gv =>
      (parseGet b).bind fun gb =>
        (parsePairs rest).map fun tl => (gv, gb) :: tl

/-- Flattening of value/branch pairs back into a token list, used to state
what the `Op::Match` pairing does with an unpaired trailing token. -/
def flatPairs : List (String × String) → List String
  | [] => []
  | (a, b) :: rest => a :: b :: flatPairs rest

/-- The dispatch at the end of the numerical-opcode arm of
`FromStr for Op` (the `_ => unreachable!()` default is `none`). -/
def mkNumOp (op : String) (var a b : Get) : Option Op :=
  if op = "eq" then some (.eq var a b)
  else if op = "gt" then some (.gt var a b)
  else if op = "add" then some (.add var a b)
  else if op = "sub" then some (.sub var a b)
  else if op = "mul" then some (.mul var a b)
  else if op = "div" then some (.div var a b)
  else if op = "mod" then some (.modv var a b)
  else if op = "and" then some (.andv var a b)
  else if op = "or" then some (.orv var a b)
  else if op = "xor" then some (.xorv var a b)
  else none

/-- The opcode strings with a numerical-binary-operation arm. -/
def numOpNames : List String :=
  ["eq", "gt", "add", "sub", "mul", "div", "mod", "and", "or", "xor"]

/-- `FromStr for Op` after shell tokenization: the match over the first
token (an empty token list is `Nop`; an unrecognized opcode is the
`invalid operation` error). -/
def opFromTokens : List String → Option Op
  | [] => some .nop
  | t :: rest =>
    if t = "set" then (parse2 rest).map fun p => .setv p.1 p.2
    else if t = "get" then (parse2 rest).map fun p => .getv p.1 p.2
    else if t = "del" then (parse1 rest).map fun v => .delv v
    else if t = "exists" then (parse2 rest).map fun p => .existsv p.1 p.2
    else if t = "branch" then (parse1 rest).map fun v => .branch v
    else if t = "enter" then (parse1 rest).map fun v => .enter v
    else if t = "exit" then some .exitv
    else if t = "match" then
      (parse2 rest).bind fun p =>
        (parsePairs (matchPairs (rest.drop 2))).map fun brs => .matchv p.1 p.2 brs
    else if t = "print" then (parse1 rest).map fun v => .print v
    else if t = "println" then (parse1 rest).map fun v => .println v
    else if t = "inpln" then (parse1 rest).map fun v => .inpln v
    else if t = "concat" then (parse3 rest).map fun p => .concat p.1 p.2.1 p.2.2
    else if t = "chars" then (parse2 rest).map fun p => .chars p.1 p.2
    else if t ∈ numOpNames then (parse3 rest).bind fun p => mkNumOp t p.1 p.2.1 p.2.2
    else none

/-- All opcode strings the parser recognizes (note: a literal `nop` token is
not among them — only the empty message parses as `Nop`). -/
def knownOps : List String :=
  ["set", "get", "del", "exists", "branch", "enter", "exit", "match",
   "print", "println", "inpln", "concat", "chars",
   "eq", "gt", "add", "sub", "mul", "div", "mod", "and", "or", "xor"]

/-- The number of operand tokens each opcode requires (its minimum arity —
surplus tokens are never rejected). -/
def opArity : List (String × Nat) :=
  [("set", 2), ("get", 2), ("del", 1), ("exists", 2), ("branch", 1),
   ("enter", 1), ("exit", 0), ("match", 2), ("print", 1), ("println", 1),
   ("inpln", 1), ("concat", 3), ("chars", 2),
   ("eq", 3), ("gt", 3), ("add", 3), ("sub", 3), ("mul", 3), ("div", 3),
   ("mod", 3), ("and", 3), ("or", 3), ("xor", 3)]

/-- A repository: the parent list of every commit (`Commit::parent(i)` is
the `i`-th entry) and the `refs/replace/<id>` reference map (the external
object store, out of scope per the spec, is reduced to these two maps). -/
structure Repo where
  parents : Nat → List Nat
  replaceRef : Nat → Option Nat

/-- `replace` from `main.rs`: follow `refs/replace` chains until no
reference exists.  The source loop has no cap and no visited set, so it is
given fuel: `none` means the loop has not finished within `fuel` steps.
The Bool is `replaced` (whether at least one step occurred). -/
def replaceFn (m : Nat → Option Nat) : Nat → Nat → Option (Nat × Bool)
  | 0, c =>
    match m c with
    | none => some (c, false)
    | some _ => none
  | fuel + 1, c =>
    match m c with
    | none => some (c, false)
    | some c2 =>
      match replaceFn m fuel c2 with
      | none => none
      | some (r, _) => some (r, true)

/-- The `k`-th iterate of one `replace` step, stopping at a fixed point. -/
def iterRep (m : Nat → Option Nat) : Nat → Nat → Nat
  | 0, c => c
  | k + 1, c =>
    match m c with
    | none => c
    | some c2 => iterRep m k c2

/-- Key membership in the children index. -/
def keyMem (ch : List (Nat × List Nat)) (k : Nat) : Bool :=
  ch.any (fun p => p.1 == k)

/-- Insert into a `HashSet<Oid>` modelled as a duplicate-free list. -/
def setInsert (s : List Nat) (x : Nat) : List Nat :=
  if s.contains x then s else s ++ [x]

/-- `children.entry(parent).or_insert_with(HashSet::new).insert(child)`. -/
def addChild : List (Nat × List Nat) → Nat → Nat → List (Nat × List Nat)
  | [], p, c => [(p, [c])]
  | (k, s) :: rest, p, c =>
    if k = p then (k, setInsert s c) :: rest else (k, s) :: addChild rest p c

/-- `HashMap<Oid, Oid>::insert` for the `equals` alias map. -/
def insertPair : List (Nat × Nat) → Nat → Nat → List (Nat × Nat)
  | [], k, v => [(k, v)]
  | (k0, v0) :: rest, k, v =>
    if k0 = k then (k0, v) :: rest else (k0, v0) :: insertPair rest k v

/-- Lookup in the `equals` alias map. -/
def lookupPair : List (Nat × Nat) → Nat → Option Nat
  | [], _ => none
  | (k0, v0) :: rest, k => if k0 = k then some v0 else lookupPair rest k

/-- The reverse-DFS loop of `collect_children` from `tree.rs`.  The stack
holds `(commit, next parent index)`; fuel bounds the loop iterations and the
inner `replace` chains (`none` = the source would not have returned). -/
def ccGo (repo : Repo) (rf : Nat) :
    Nat → List (Nat × List Nat) → List (Nat × Nat) → List (Nat × Nat) →
    Option (List (Nat × List Nat) × List (Nat × Nat))
  | 0, _, _, _ => none
  | fuel + 1, ch, eqs, stack =>
    match stack with
    | [] => some (ch, eqs)
    | (c, i) :: rest =>
      match (repo.parents c)[i]? with
      | none => ccGo repo rf fuel ch eqs rest
      | some p =>
        match replaceFn repo.replaceRef rf p with
        | none => none
        | some (p2, repl) =>
          let eqs2 := if repl then insertPair eqs p p2 else eqs
          if keyMem ch p2 then
            ccGo repo rf fuel (addChild ch p2 c) eqs2 ((c, i + 1) :: rest)
          else
            ccGo repo rf fuel (addChild ch p2 c) eqs2 ((p2, 0) :: (c, i + 1) :: rest)

/-- The post-pass of `collect_children`: rebuild every child set with each
id sent through the `equals` alias map. -/
def rewriteSet (eqs : List (Nat × Nat)) (s : List Nat) : List Nat :=
  s.foldl (fun acc id =>
    match lookupPair eqs id with
    | some n => setInsert acc n
    | none => setInsert acc id) []

/-- Alias rewriting of the whole index (keys untouched). -/
def rewriteCh (eqs : List (Nat × Nat)) (ch : List (Nat × List Nat)) :
    List (Nat × List Nat) :=
  ch.map (fun p => (p.1, rewriteSet eqs p.2))

/-- `collect_children` from `tree.rs`: replace `end`, record its alias, run
the reverse DFS, rewrite the child sets through the alias map. -/
def collectChildren (repo : Repo) (rf df : Nat) (endC : Nat) :
    Option (List (Nat × List Nat)) :=
  match replaceFn repo.replaceRef rf endC with
  | none => none
  | some (e, repl) =>
    match ccGo repo rf df [] (if repl then insertPair [] endC e else []) [(e, 0)] with
    | none => none
    | some (ch, eqs) => some (rewriteCh eqs ch)

/-- A commit is fully processed in a children index when every one of its
parents has a terminating redirection chain whose canonical identity
appears as a key. -/
def ProcessedIn (repo : Repo) (rf : Nat) (ch : List (Nat × List Nat)) (c : Nat) : Prop :=
  ∀ p ∈ repo.parents c,
    ∃ p2 b, replaceFn repo.replaceRef rf p = some (p2, b) ∧ keyMem ch p2 = true

/-- Canonical reachability: from `a`, following parent edges with every
parent sent through the redirection resolver (this is the graph the
children-index walk and the `find_tag` walk both traverse). -/
inductive ReachC (repo : Repo) (rf : Nat) : Nat → Nat → Prop where
  | refl (a : Nat) : ReachC repo rf a a
  | step {a b p p2 : Nat} {fl : Bool} :
      ReachC repo rf a b → p ∈ repo.parents b →
      replaceFn repo.replaceRef rf p = some (p2, fl) → ReachC repo rf a p2

/-- One commit is within ancestor-distance `n` of another in the canonical
graph (the spec's shortest-ancestor-distance metric, used to state C1). -/
def ancWithin (repo : Repo) (rf : Nat) : Nat → Nat → Nat → Bool
  | 0, src, tgt => src == tgt
  | n + 1, src, tgt =>
    src == tgt ||
      (repo.parents src).any (fun p =>
        match replaceFn repo.replaceRef rf p with
        | some (p2, _) => ancWithin repo rf n p2 tgt
        | none => false)

/-- The DFS loop of `Instance::find_tag`: the stack holds
`(commit, next parent index)`, `dist` is incremented on push and
decremented on pop (so it always equals the stack height), `checked` is the
visited set, `found` records `(child, dist)` every time the stack top lies
in the candidate child list.  Fuel bounds the loop. -/
def ftGo (repo : Repo) (rf : Nat) (commits : List Nat) :
    Nat → List (Nat × Nat) → Nat → List Nat → List (Nat × Nat) →
    Option (List (Nat × Nat))
  | 0, _, _, _, _ => none
  | fuel + 1, stack, dist, checked, found =>
    match stack with
    | [] => some found
    | (cur, i) :: rest =>
      let found2 := if commits.contains cur then found ++ [(cur, dist)] else found
      match (repo.parents cur)[i]? with
      | none => ftGo repo rf commits fuel rest (dist - 1) checked found2
      | some p =>
        match replaceFn repo.replaceRef rf p with
        | none => none
        | some (p2, _) =>
          if checked.contains p2 then
            ftGo repo rf commits fuel ((cur, i + 1) :: rest) dist checked found2
          else
            ftGo repo rf commits fuel ((p2, 0) :: (cur, i) :: rest) (dist + 1)
              (p2 :: checked) found2

/-- The fold of `Iterator::min_by_key`: keep the current minimum, replace
it only on a strictly smaller key (so ties keep the earlier element). -/
def minByGo (cur : Nat × Nat) : List (Nat × Nat) → Nat × Nat
  | [] => cur
  | q :: rest => minByGo (if q.2 < cur.2 then q else cur) rest

/-- `found.into_iter().min_by_key(|(_, dist)| *dist).map(|(c, _)| c)`. -/
def minByDist : List (Nat × Nat) → Option Nat
  | [] => none
  | p :: rest => some (minByGo p rest).1

/-- `Instance::find_tag`: resolve the tag commit (taken here as an id; the
name-to-commit lookup is the external object store), apply redirection, run
the ancestor DFS, return the recorded child of minimum recorded depth.
Outer `none` = a source loop failed to return within fuel. -/
def findTag (repo : Repo) (rf df : Nat) (tagC : Nat) (commits : List Nat) :
    Option (Option Nat) :=
  match replaceFn repo.replaceRef rf tagC with
  | none => none
  | some (t, _) =>
    match ftGo repo rf commits df [(t, 0)] 1 [] [] with
    | none => none
    | some found => some (minByDist found)

/-- Membership of an integer in the `i64` range. -/
def inRange64 (x : Int) : Prop := -(2 ^ 63) ≤ x ∧ x < 2 ^ 63

/-- A two-cycle of replacement references: `0 → 1 → 0` (no other commit is
redirected).  Used to exhibit the behaviour of `replace` on a cyclic
chain. -/
def cycMap : Nat → Option Nat :=
  fun c => if c = 0 then some 1 else if c = 1 then some 0 else none

/-- An acyclic replacement chain `0 → 1 → 2` used as a witness input. -/
def chainMap : Nat → Option Nat :=
  fun c => if c = 0 then some 1 else if c = 1 then some 2 else none

/-- The repository of the C1 counterexample: commit 0 is the tag commit,
with parents `[1, 3]`; 1 has parent `[2]`; 2 has parent `[3]`; 3 is a root.
No redirections.  The candidate children are `[3, 2]`: 3 is a direct parent
of the tag (shortest ancestor-distance 1) but the DFS first discovers it
below 2, so 2 (shortest ancestor-distance 2) wins. -/
def repoC1 : Repo where
  parents := fun n =>
    match n with
    | 0 => [1, 3]
    | 1 => [2]
    | 2 => [3]
    | _ => []
  replaceRef := fun _ => none

/-- The repository of the C4 counterexample and witness: commit 1 (`_end`)
has the single parent 0 (`_start`); no redirections. -/
def repoC4 : Repo where
  parents := fun n =>
    match n with
    | 1 => [0]
    | _ => []
  replaceRef := fun _ => none

/-- A three-commit chain `2 → 1 → 0` (parent edges downward) used as the C4
witness repository. -/
def repoChain : Repo where
  parents := fun n =>
    match n with
    | 2 => [1]
    | 1 => [0]
    | _ => []
  replaceRef := fun _ => none

/-! ### Table lemmas -/

theorem lookupT_insertT_self : ∀ (t : Table) (k : String) (v : Val),
    Table.lookupT (Table.insertT t k v) k = some v
  | [], k, v => by simp [Table.insertT, Table.lookupT]
  | (k0, w) :: rest, k, v => by
    by_cases h : k0 = k
    · simp [Table.insertT, Table.lookupT, h]
    · simp [Table.insertT, Table.lookupT, h, lookupT_insertT_self rest k v]

theorem insertT_lookup_eq : ∀ (t : Table) (k : String) (v : Val),
    Table.lookupT t k = some v → Table.insertT t k v = t
  | [], k, v => by simp [Table.lookupT]
  | (k0, w) :: rest, k, v => by
    intro hl
    by_cases h : k0 = k
    · simp only [Table.lookupT, if_pos h] at hl
      simp only [Table.insertT, if_pos h]
      simp_all
    · simp only [Table.lookupT, if_neg h] at hl
      simp [Table.insertT, h, insertT_lookup_eq rest k v hl]

/-! ### `set` / `del` walk lemmas -/

theorem interiorsOk_nil : ∀ rest : List String, interiorsOkSegs ([] : Table) rest = true
  | [] => rfl
  | _ :: _ => rfl

theorem setSegs_nil_ok : ∀ (ints : List String) (tail : String) (v : Val),
    (setSegs ([] : Table) ints tail v).2 = true
  | [], _, _ => rfl
  | s :: rest, tail, v => by
    rcases hsub : setSegs ([] : Table) rest tail v with ⟨sub, ok⟩
    have h2 := setSegs_nil_ok rest tail v
    rw [hsub] at h2
    simp [setSegs, Table.lookupT, hsub, h2]

theorem delSegs_nil_ok : ∀ (ints : List String) (tail : String),
    (delSegs ([] : Table) ints tail).2 = true
  | [], _ => rfl
  | s :: rest, tail => by
    rcases hsub : delSegs ([] : Table) rest tail with ⟨sub, ok⟩
    have h2 := delSegs_nil_ok rest tail
    rw [hsub] at h2
    simp [delSegs, Table.lookupT, hsub, h2]

theorem setSegs_get_aux (v : Val) :
    ∀ (ints : List String) (t : Table) (tail : String),
      interiorsOkSegs t ints = true →
      (setSegs t ints tail v).2 = true ∧
        getPathSegs (setSegs t ints tail v).1 ints tail = some v := by
  intro ints
  induction ints with
  | nil =>
    intro t tail _
    exact ⟨rfl, by simp [setSegs, getPathSegs, lookupT_insertT_self]⟩
  | cons s rest ih =>
    intro t tail hok
    cases hl : Table.lookupT t s with
    | none =>
      rcases hsub : setSegs ([] : Table) rest tail v with ⟨sub, ok⟩
      obtain ⟨h1, h2⟩ := ih [] tail (interiorsOk_nil rest)
      rw [hsub] at h1 h2
      simp only [setSegs, hl, hsub]
      refine ⟨h1, ?_⟩
      simp [getPathSegs, lookupT_insertT_self, h2]
    | some val =>
      cases val with
      | table sub =>
        rcases hsub : setSegs sub rest tail v with ⟨sub2, ok⟩
        have hok2 : interiorsOkSegs sub rest = true := by
          simpa [interiorsOkSegs, hl] using hok
        obtain ⟨h1, h2⟩ := ih sub tail hok2
        rw [hsub] at h1 h2
        simp only [setSegs, hl, hsub]
        refine ⟨h1, ?_⟩
        simp [getPathSegs, lookupT_insertT_self, h2]
      | int n => simp [interiorsOkSegs, hl] at hok
      | str s2 => simp [interiorsOkSegs, hl] at hok

theorem setSegs_fail_eq (v : Val) :
    ∀ (ints : List String) (t : Table) (tail : String),
      (setSegs t ints tail v).2 = false → (setSegs t ints tail v).1 = t := by
  intro ints
  induction ints with
  | nil => intro t tail h; simp [setSegs] at h
  | cons s rest ih =>
    intro t tail h
    cases hl : Table.lookupT t s with
    | none =>
      rcases hsub : setSegs ([] : Table) rest tail v with ⟨sub, ok⟩
      have h2 := setSegs_nil_ok rest tail v
      rw [hsub] at h2
      simp only [setSegs, hl, hsub] at h
      simp at h2
      rw [h2] at h
      exact Bool.noConfusion h
    | some val =>
      cases val with
      | table sub =>
        rcases hsub : setSegs sub rest tail v with ⟨sub2, ok⟩
        simp only [setSegs, hl, hsub] at h ⊢
        have hs : sub2 = sub := by
          have := ih sub tail
          rw [hsub] at this
          exact this h
        rw [hs]
        exact insertT_lookup_eq t s (.table sub) hl
      | int n => simp [setSegs, hl]
      | str s2 => simp [setSegs, hl]

theorem delSegs_fail_eq :
    ∀ (ints : List String) (t : Table) (tail : String),
      (delSegs t ints tail).2 = false → (delSegs t ints tail).1 = t := by
  intro ints
  induction ints with
  | nil => intro t tail h; simp [delSegs] at h
  | cons s rest ih =>
    intro t tail h
    cases hl : Table.lookupT t s with
    | none =>
      rcases hsub : delSegs ([] : Table) rest tail with ⟨sub, ok⟩
      have h2 := delSegs_nil_ok rest tail
      rw [hsub] at h2
      simp only [delSegs, hl, hsub] at h
      simp at h2
      rw [h2] at h
      exact Bool.noConfusion h
    | some val =>
      cases val with
      | table sub =>
        rcases hsub : delSegs sub rest tail with ⟨sub2, ok⟩
        simp only [delSegs, hl, hsub] at h ⊢
        have hs : sub2 = sub := by
          have := ih sub tail
          rw [hsub] at this
          exact this h
        rw [hs]
        exact insertT_lookup_eq t s (.table sub) hl
      | int n => simp [delSegs, hl]
      | str s2 => simp [delSegs, hl]

/-- C5: for any path whose interior segments each resolve to an existing
Table or are absent, `set(P, V)` succeeds and resolving `P` afterwards from
the same scope yields exactly `V`. -/
theorem C5_set_get_roundtrip (t : Table) (P : String) (v : Val)
    (h : interiorsOkStr t P = true) :
    (setStr t P v).2 = true ∧ Get.valIn (.var P) (setStr t P v).1 = some v := by
  rcases hsp : splitPath P with ⟨ints, tail⟩
  have h2 : interiorsOkSegs t ints = true := by
    have := h
    unfold interiorsOkStr at this
    rw [hsp] at this
    exact this
  have := setSegs_get_aux v ints t tail h2
  simp only [setStr, Get.valIn, hsp]
  exact this

theorem C5_witness :
    interiorsOkStr ([] : Table) "a/b" = true ∧
      (setStr [] "a/b" (Val.int 7)).2 = true ∧
      Get.valIn (.var "a/b") (setStr [] "a/b" (Val.int 7)).1 = some (Val.int 7) := by
  refine ⟨rfl, C5_set_get_roundtrip [] "a/b" (Val.int 7) rfl⟩

/-- C10 counterexample: at a concrete failing `set` (and `del`) the store
comes back exactly unchanged — no auto-created empty Tables remain, because
a NotATable failure can only happen before any interior was missing. -/
theorem C10_counterexample :
    (setStr [("a", Val.int 1)] "a/b/c" (Val.int 7)).2 = false ∧
    (setStr [("a", Val.int 1)] "a/b/c" (Val.int 7)).1 = [("a", Val.int 1)] ∧
    (delStr [("a", Val.int 1)] "a/b/c").2 = false ∧
    (delStr [("a", Val.int 1)] "a/b/c").1 = [("a", Val.int 1)] :=
  ⟨rfl, rfl, rfl, rfl⟩

/-- C10 (amended): when the `set` or `del` walk fails with a NotATable
error, every interior segment before the failure point was a pre-existing
Table, so nothing was auto-created and the store is returned unchanged —
the operations are atomic on failure. -/
theorem C10_set_del_atomic (t : Table) (ints : List String) (tail : String)
    (v : Val) :
    ((setSegs t ints tail v).2 = false → (setSegs t ints tail v).1 = t) ∧
    ((delSegs t ints tail).2 = false → (delSegs t ints tail).1 = t) :=
  ⟨setSegs_fail_eq v ints t tail, delSegs_fail_eq ints t tail⟩

theorem C10_witness :
    (setSegs [("a", Val.int 1)] ["a", "b"] "c" (Val.int 7)).2 = false ∧
    (setSegs [("a", Val.int 1)] ["a", "b"] "c" (Val.int 7)).1 = [("a", Val.int 1)] ∧
    (delSegs [("a", Val.int 1)] ["a", "b"] "c").2 = false ∧
    (delSegs [("a", Val.int 1)] ["a", "b"] "c").1 = [("a", Val.int 1)] :=
  ⟨rfl, (C10_set_del_atomic [("a", Val.int 1)] ["a", "b"] "c" (Val.int 7)).1 rfl,
   rfl, (C10_set_del_atomic [("a", Val.int 1)] ["a", "b"] "c" (Val.int 7)).2 rfl⟩

/-! ### `exists` walk lemmas -/

theorem existsSegs_get_aux :
    ∀ (ints : List String) (t : Table) (tail : String),
      (existsSegs t ints tail = some true ↔ (getPathSegs t ints tail).isSome = true) ∧
      (existsSegs t ints tail = some false → getPathSegs t ints tail = none) ∧
      (existsSegs t ints tail = none → getPathSegs t ints tail = none) := by
  intro ints
  induction ints with
  | nil =>
    intro t tail
    refine ⟨?_, ?_, ?_⟩
    · simp [existsSegs, getPathSegs, Table.containsT]
    · intro h
      simp only [existsSegs, Table.containsT] at h
      simp only [getPathSegs]
      simpa [Option.isSome_iff_exists] using h
    · intro h
      simp [existsSegs] at h
  | cons s rest ih =>
    intro t tail
    cases hl : Table.lookupT t s with
    | none =>
      refine ⟨?_, ?_, ?_⟩
      · simp [existsSegs, getPathSegs, hl]
      · intro _; simp [getPathSegs, hl]
      · intro h; simp [existsSegs, hl] at h
    | some val =>
      cases val with
      | table sub =>
        have := ih sub tail
        simpa [existsSegs, getPathSegs, hl] using this
      | int n =>
        refine ⟨?_, ?_, ?_⟩
        · simp [existsSegs, getPathSegs, hl]
        · intro h; simp [existsSegs, hl] at h
        · intro _; simp [getPathSegs, hl]
      | str s2 =>
        refine ⟨?_, ?_, ?_⟩
        · simp [existsSegs, getPathSegs, hl]
        · intro h; simp [existsSegs, hl] at h
        · intro _; simp [getPathSegs, hl]

/-- C6 counterexample: for the scope `{a: Int 5}` the path `a/b` does not
resolve (NotATable at `a`), but `exists x a/b` raises the error instead of
writing Int 0 — refuting "returns 0 (rather than raising an error)
whenever that resolution would fail". -/
theorem C6_counterexample :
    Get.valIn (.var "a/b") [("a", Val.int 5)] = none ∧
    execExists (.val (.str "x")) (.val (.str "a/b")) [("a", Val.int 5)] = .err :=
  ⟨rfl, rfl⟩

/-- C6 (amended): `exists` writes Int 1 exactly when resolving the path as
a variable would succeed, writes Int 0 when the resolution fails on a
missing key, but raises the NotATable error (writing nothing) when an
interior segment exists and is not a Table before any key is missing. -/
theorem C6_exists_semantics :
    (∀ (t : Table) (ints : List String) (tail : String),
      (existsSegs t ints tail = some true ↔ (getPathSegs t ints tail).isSome = true) ∧
      (existsSegs t ints tail = some false → getPathSegs t ints tail = none) ∧
      (existsSegs t ints tail = none → getPathSegs t ints tail = none)) ∧
    (∀ (t : Table) (sym : String) (b : Bool),
      existsSegs t (splitPath sym).1 (splitPath sym).2 = some b →
      execExists (.val (.str "x")) (.val (.str sym)) t =
        .ok (setStr t "x" (.int (if b then 1 else 0))).1) ∧
    (∀ (t : Table) (sym : String),
      existsSegs t (splitPath sym).1 (splitPath sym).2 = none →
      execExists (.val (.str "x")) (.val (.str sym)) t = .err) := by
  refine ⟨fun t ints tail => existsSegs_get_aux ints t tail, ?_, ?_⟩
  · intro t sym b hex
    rcases hsp : splitPath sym with ⟨ints, tail⟩
    rw [hsp] at hex
    have hset : setStr t "x" (.int (if b then 1 else 0)) =
        (Table.insertT t "x" (.int (if b then 1 else 0)), true) := rfl
    simp only [execExists, Get.valIn, Val.render, hsp, hex, hset]
  · intro t sym hex
    rcases hsp : splitPath sym with ⟨ints, tail⟩
    rw [hsp] at hex
    simp only [execExists, Get.valIn, Val.render, hsp, hex]

theorem C6_witness :
    existsSegs [("a", Val.table [("b", Val.int 2)])] (splitPath "a/b").1
      (splitPath "a/b").2 = some true ∧
    execExists (.val (.str "x")) (.val (.str "a/b"))
      [("a", Val.table [("b", Val.int 2)])] =
      .ok (setStr [("a", Val.table [("b", Val.int 2)])] "x" (Val.int 1)).1 := by
  refine ⟨rfl, ?_⟩
  have h := C6_exists_semantics.2.1 [("a", Val.table [("b", Val.int 2)])] "a/b" true rfl
  simpa using h

/-- C2: with both operands Int and the divisor 0, `div` (and `mod`)
executes the raw Rust `a / b` / `a % b`, which panics — the embedded
outcome is `crashed`, the process-aborting panic, not the reportable `err`
that the interpreter would prefix with the commit id.  No ArithmeticError
exists anywhere in the code. -/
theorem C2_div_mod_zero_crashes :
    execDiv (.val (.str "x")) (.val (.int 1)) (.val (.int 0)) [] = .crashed ∧
    execMod (.val (.str "x")) (.val (.int 1)) (.val (.int 0)) [] = .crashed :=
  ⟨rfl, rfl⟩

/-! ### `replace` lemmas (C3) -/

theorem replaceFn_fixed (m : Nat → Option Nat) :
    ∀ (fuel c r : Nat) (b : Bool), replaceFn m fuel c = some (r, b) → m r = none := by
  intro fuel
  induction fuel with
  | zero =>
    intro c r b h
    cases hm : m c with
    | none => simp [replaceFn, hm] at h; rw [← h.1]; exact hm
    | some c2 => simp [replaceFn, hm] at h
  | succ f ih =>
    intro c r b h
    cases hm : m c with
    | none => simp [replaceFn, hm] at h; rw [← h.1]; exact hm
    | some c2 =>
      simp only [replaceFn, hm] at h
      cases hr : replaceFn m f c2 with
      | none => rw [hr] at h; exact Option.noConfusion h
      | some p =>
        rw [hr] at h
        have : p.1 = r := by
          cases p; simp at h; exact h.1
        exact this ▸ ih c2 p.1 p.2 (by rw [hr])

theorem replaceFn_of_iter (m : Nat → Option Nat) :
    ∀ (k fuel c : Nat), m (iterRep m k c) = none → k ≤ fuel →
      ∃ b, replaceFn m fuel c = some (iterRep m k c, b) := by
  intro k
  induction k with
  | zero =>
    intro fuel c h _
    simp only [iterRep] at h ⊢
    cases fuel with
    | zero => exact ⟨false, by simp [replaceFn, h]⟩
    | succ f => exact ⟨false, by simp [replaceFn, h]⟩
  | succ k ih =>
    intro fuel c h hk
    cases hm : m c with
    | none =>
      simp only [iterRep, hm] at h ⊢
      cases fuel with
      | zero => exact ⟨false, by simp [replaceFn, hm]⟩
      | succ f => exact ⟨false, by simp [replaceFn, hm]⟩
    | some c2 =>
      cases fuel with
      | zero => omega
      | succ f =>
        simp only [iterRep, hm] at h ⊢
        obtain ⟨b, hb⟩ := ih f c2 h (by omega)
        exact ⟨true, by simp [replaceFn, hm, hb]⟩

/-- C3 (amended): whenever the resolver returns, the result is a genuine
fixed point (no replacement reference remains), and whenever the chain from
`c` reaches a fixed point within `k ≤ fuel` steps the resolver returns that
fixed point.  The cyclic case is settled by the counterexample: the source
loop has no iteration cap, no visited set and no RedirectLoop error, and
never returns. -/
theorem C3_replace_fixed_point (m : Nat → Option Nat) (fuel c r k : Nat) (b : Bool) :
    (replaceFn m fuel c = some (r, b) → m r = none) ∧
    (m (iterRep m k c) = none → k ≤ fuel →
      ∃ b2, replaceFn m fuel c = some (iterRep m k c, b2)) :=
  ⟨replaceFn_fixed m fuel c r b, replaceFn_of_iter m k fuel c⟩

theorem C3_witness :
    chainMap (iterRep chainMap 2 0) = none ∧ 2 ≤ 5 ∧
    (∃ b2, replaceFn chainMap 5 0 = some (iterRep chainMap 2 0, b2)) :=
  ⟨rfl, by omega, (C3_replace_fixed_point chainMap 5 0 0 2 false).2 rfl (by omega)⟩

theorem cyc_replaceFn_none :
    ∀ fuel : Nat, replaceFn cycMap fuel 0 = none ∧ replaceFn cycMap fuel 1 = none := by
  intro fuel
  induction fuel with
  | zero => exact ⟨rfl, rfl⟩
  | succ f ih =>
    constructor
    · show replaceFn cycMap (f + 1) 0 = none
      simp only [replaceFn, show cycMap 0 = some 1 from rfl, ih.2]
    · show replaceFn cycMap (f + 1) 1 = none
      simp only [replaceFn, show cycMap 1 = some 0 from rfl, ih.1]

/-- C3 counterexample: on the two-cycle of replacement references
`0 → 1 → 0`, the resolver never returns for any iteration budget — it
neither reaches a fixed point nor surfaces any RedirectLoop error, refuting
"the resolver terminates on every input". -/
theorem C3_counterexample :
    ¬ ∃ (fuel : Nat) (res : Nat × Bool), replaceFn cycMap fuel 0 = some res := by
  rintro ⟨fuel, res, h⟩
  rw [(cyc_replaceFn_none fuel).1] at h
  exact Option.noConfusion h

/-! ### i64 arithmetic lemmas (C7) -/

theorem toBits64_lt (x : Int) : toBits64 x < 2 ^ 64 := by
  unfold toBits64; omega

theorem toBits64_ofBits64 (n : Nat) (h : n < 2 ^ 64) : toBits64 (ofBits64 n) = n := by
  unfold toBits64 ofBits64
  split <;> omega

/-- C7: the arithmetic of `num_binop` matches two's-complement 64-bit
signed semantics — `add`, `sub`, `mul` equal the exact result modulo 2^64,
landed back in the signed range (release-profile wrapping); `and`, `or`,
`xor` are bitwise on the 64-bit patterns; `gt` is the signed comparison;
and the executed instruction stores exactly that Int. -/
theorem C7_i64_two_complement (a b : Int) (ha : inRange64 a) (hb : inRange64 b) :
    (i64add a b % 2 ^ 64 = (a + b) % 2 ^ 64 ∧ inRange64 (i64add a b)) ∧
    (i64sub a b % 2 ^ 64 = (a - b) % 2 ^ 64 ∧ inRange64 (i64sub a b)) ∧
    (i64mul a b % 2 ^ 64 = (a * b) % 2 ^ 64 ∧ inRange64 (i64mul a b)) ∧
    toBits64 (i64and a b) = Nat.land (toBits64 a) (toBits64 b) ∧
    toBits64 (i64or a b) = Nat.lor (toBits64 a) (toBits64 b) ∧
    toBits64 (i64xor a b) = Nat.xor (toBits64 a) (toBits64 b) ∧
    ofBits64 (toBits64 a) = a ∧ ofBits64 (toBits64 b) = b ∧
    execAdd (.val (.str "x")) (.val (.int a)) (.val (.int b)) [] =
      .ok [("x", Val.int (i64add a b))] ∧
    execGt (.val (.str "x")) (.val (.int a)) (.val (.int b)) [] =
      .ok [("x", Val.int (if b < a then 1 else 0))] := by
  refine ⟨?_, ?_, ?_, ?_, ?_, ?_, ?_, ?_, rfl, rfl⟩
  · unfold i64add i64wrap inRange64 at *; omega
  · unfold i64sub i64wrap inRange64 at *; omega
  · unfold i64mul i64wrap inRange64 at *; omega
  · exact toBits64_ofBits64 _ (Nat.and_lt_two_pow _ (toBits64_lt b))
  · exact toBits64_ofBits64 _ (Nat.or_lt_two_pow (toBits64_lt a) (toBits64_lt b))
  · exact toBits64_ofBits64 _ (Nat.xor_lt_two_pow (toBits64_lt a) (toBits64_lt b))
  · unfold ofBits64 toBits64 inRange64 at *; split <;> omega
  · unfold ofBits64 toBits64 inRange64 at *; split <;> omega

theorem C7_witness :
    inRange64 1 ∧ inRange64 2 ∧
    execAdd (.val (.str "x")) (.val (.int 1)) (.val (.int 2)) [] =
      .ok [("x", Val.int (i64add 1 2))] :=
  ⟨⟨by decide, by decide⟩, ⟨by decide, by decide⟩,
   (C7_i64_two_complement 1 2 ⟨by decide, by decide⟩
     ⟨by decide, by decide⟩).2.2.2.2.2.2.2.2.1⟩

/-! ### `inpln` lemmas (C9) -/

theorem readLineChars_newline :
    ∀ (l rest : List Char), '\n' ∉ l →
      readLineChars (l ++ '\n' :: rest) = (l ++ ['\n'], rest) := by
  intro l
  induction l with
  | nil => intro rest _; simp [readLineChars]
  | cons c l ih =>
    intro rest h
    simp only [List.mem_cons, not_or] at h
    have hc : ¬ c = '\n' := fun hcc => h.1 hcc.symm
    simp only [List.cons_append, readLineChars, if_neg hc]
    rw [show l.append ('\n' :: rest) = l ++ '\n' :: rest from rfl, ih rest h.2]

theorem readLineChars_eof :
    ∀ l : List Char, '\n' ∉ l → readLineChars l = (l, []) := by
  intro l
  induction l with
  | nil => intro _; rfl
  | cons c l ih =>
    intro h
    simp only [List.mem_cons, not_or] at h
    have hc : ¬ c = '\n' := fun hcc => h.1 hcc.symm
    simp only [readLineChars, if_neg hc, ih h.2]

/-- C9 counterexample: with stdin `abc` ending without a newline (EOF
mid-line), `inpln` does not raise any IoError — it stores `ab`, silently
removing the real final character `c`. -/
theorem C9_counterexample :
    execInpln (.val (.str "x")) [] ['a', 'b', 'c'] =
      (.ok [("x", Val.str (String.mk ['a', 'b']))], []) ∧
    String.mk ['a', 'b'] ≠ String.mk ['a', 'b', 'c'] :=
  ⟨rfl, by decide⟩

/-- C9 (amended): `inpln` removes the final character of the line read
unconditionally and then one trailing `\r` if present.  When the line is
terminated by a newline this strips exactly the trailing `\n` and at most
one preceding `\r` (the claim's good case); when the input ends mid-line
(no trailing newline) no error is raised and the last real character of
the line is removed instead. -/
theorem C9_inpln_line_handling (l rest : List Char) (h : '\n' ∉ l) :
    readLineChars (l ++ '\n' :: rest) = (l ++ ['\n'], rest) ∧
    inplnStore (l ++ ['\n']) = stripCR l ∧
    readLineChars l = (l, []) ∧
    inplnStore l = stripCR l.dropLast := by
  refine ⟨readLineChars_newline l rest h, ?_, readLineChars_eof l h, rfl⟩
  unfold inplnStore stripCR
  simp only [List.dropLast_concat]

theorem C9_witness :
    ('\n' ∉ ['a', 'b', '\r']) ∧
    readLineChars (['a', 'b', '\r'] ++ '\n' :: ['z']) = (['a', 'b', '\r', '\n'], ['z']) ∧
    inplnStore (['a', 'b', '\r'] ++ ['\n']) = stripCR ['a', 'b', '\r'] ∧
    readLineChars ['a', 'b', '\r'] = (['a', 'b', '\r'], []) ∧
    inplnStore ['a', 'b', '\r'] = stripCR (['a', 'b', '\r']).dropLast :=
  ⟨by decide, C9_inpln_line_handling ['a', 'b', '\r'] ['z'] (by decide)⟩

/-! ### Parser lemmas (C8) -/

theorem enumFrom_parity_shift :
    ∀ (l : List String) (n : Nat),
      (((List.enumFrom (n + 2) l).filter fun p => decide (p.1 % 2 = 0)).map Prod.snd =
        ((List.enumFrom n l).filter fun p => decide (p.1 % 2 = 0)).map Prod.snd) ∧
      (((List.enumFrom (n + 2) l).filter fun p => !decide (p.1 % 2 = 0)).map Prod.snd =
        ((List.enumFrom n l).filter fun p => !decide (p.1 % 2 = 0)).map Prod.snd) := by
  intro l
  induction l with
  | nil => intro n; simp
  | cons x l ih =>
    intro n
    have hmod : (n + 2) % 2 = n % 2 := by omega
    constructor <;>
      · simp only [List.enumFrom, List.filter_cons, hmod]
        cases hq : decide (n % 2 = 0) <;>
          simp [hq, (ih (n + 1)).1, (ih (n + 1)).2]

theorem matchPairs_cons2 (a b : String) (l : List String) :
    matchPairs (a :: b :: l) = (a, b) :: matchPairs l := by
  unfold matchPairs
  simp only [List.enum, List.partition_eq_filter_filter, List.enumFrom,
    List.filter_cons, List.map_cons, Function.comp_def]
  norm_num
  have h1 := (enumFrom_parity_shift l 0).1
  have h2 := (enumFrom_parity_shift l 0).2
  norm_num at h1 h2
  rw [h1, h2]

theorem matchPairs_flat :
    ∀ ps : List (String × String),
      matchPairs (flatPairs ps) = ps ∧
        ∀ x : String, matchPairs (flatPairs ps ++ [x]) = ps := by
  intro ps
  induction ps with
  | nil => exact ⟨rfl, fun x => rfl⟩
  | cons p rest ih =>
    rcases p with ⟨a, b⟩
    refine ⟨?_, fun x => ?_⟩
    · simp only [flatPairs, matchPairs_cons2, ih.1]
    · simp only [flatPairs, List.cons_append, matchPairs_cons2, ih.2 x]

theorem opFromTokens_unknown (t : String) (rest : List String) (h : t ∉ knownOps) :
    opFromTokens (t :: rest) = none := by
  simp only [knownOps, List.mem_cons, not_or, List.not_mem_nil, not_false_iff,
    and_true] at h
  obtain ⟨h1, h2, h3, h4, h5, h6, h7, h8, h9, h10, h11, h12, h13, h14, h15, h16,
    h17, h18, h19, h20, h21, h22, h23⟩ := h
  have hmem : t ∉ numOpNames := by
    simp [numOpNames, h14, h15, h16, h17, h18, h19, h20, h21, h22, h23]
  simp only [opFromTokens, if_neg h1, if_neg h2, if_neg h3, if_neg h4, if_neg h5,
    if_neg h6, if_neg h7, if_neg h8, if_neg h9, if_neg h10, if_neg h11,
    if_neg h12, if_neg h13, if_neg hmem]

theorem opFromTokens_tooFew (t : String) (k : Nat) (rest : List String)
    (hmem : (t, k) ∈ opArity) (hlen : rest.length < k) :
    opFromTokens (t :: rest) = none := by
  simp only [opArity, List.mem_cons, Prod.mk.injEq, List.not_mem_nil, or_false] at hmem
  rcases hmem with ha | ha | ha | ha | ha | ha | ha | ha | ha | ha | ha | ha |
    ha | ha | ha | ha | ha | ha | ha | ha | ha | ha | ha <;>
    (obtain ⟨rfl, rfl⟩ := ha
     cases rest with
     | nil => first | omega | rfl
     | cons a r1 =>
       cases r1 with
       | nil => first | rfl | (simp only [List.length_cons] at hlen; omega)
       | cons b r2 =>
         cases r2 with
         | nil => first | rfl | (simp only [List.length_cons] at hlen; omega)
         | cons c r3 => simp only [List.length_cons] at hlen; omega)

theorem opFromTokens_surplus (t : String) (k : Nat) (rest : List String)
    (hmem : (t, k) ∈ opArity) (hne : t ≠ "match") :
    opFromTokens (t :: rest) = opFromTokens (t :: rest.take k) := by
  simp only [opArity, List.mem_cons, Prod.mk.injEq, List.not_mem_nil, or_false] at hmem
  rcases hmem with hb | hb | hb | hb | hb | hb | hb | hb | hb | hb | hb | hb |
    hb | hb | hb | hb | hb | hb | hb | hb | hb | hb | hb <;>
    obtain ⟨rfl, rfl⟩ := hb <;>
    first
    | exact absurd rfl hne
    | (cases rest with
       | nil => rfl
       | cons a r1 =>
         cases r1 with
         | nil => rfl
         | cons b r2 =>
           cases r2 with
           | nil => rfl
           | cons c r3 => rfl)

theorem opFromTokens_match_dropOdd (v s x : String) (ps : List (String × String)) :
    opFromTokens ("match" :: v :: s :: (flatPairs ps ++ [x])) =
      opFromTokens ("match" :: v :: s :: flatPairs ps) := by
  simp only [opFromTokens, List.drop_succ_cons, List.drop_zero]
  rw [(matchPairs_flat ps).2 x, (matchPairs_flat ps).1]
  rfl

/-- C8 counterexample: surplus operand tokens do not raise a ParseError —
`exit junk` parses as `Exit` with `junk` silently dropped, and a `match`
with an odd value/branch tail parses with the unpaired token silently
dropped. -/
theorem C8_counterexample :
    opFromTokens ["exit", "junk"] = some .exitv ∧
    opFromTokens ["match", "v", "s", "odd"] =
      some (.matchv (.val (.str "v")) (.val (.str "s")) []) :=
  ⟨rfl, rfl⟩

/-- C8 (amended): parsing fails on an unknown opcode (including a literal
`nop` token — only the empty message is `Nop`) and on fewer operand tokens
than the opcode requires; but surplus tokens beyond an opcode's arity are
silently ignored, and an unpaired trailing `match` value token is silently
dropped, rather than raising a ParseError. -/
theorem C8_parse_errors :
    (∀ (t : String) (rest : List String), t ∉ knownOps →
      opFromTokens (t :: rest) = none) ∧
    (∀ (t : String) (k : Nat) (rest : List String), (t, k) ∈ opArity →
      rest.length < k → opFromTokens (t :: rest) = none) ∧
    (∀ (t : String) (k : Nat) (rest : List String), (t, k) ∈ opArity →
      t ≠ "match" → opFromTokens (t :: rest) = opFromTokens (t :: rest.take k)) ∧
    (∀ (v s x : String) (ps : List (String × String)),
      opFromTokens ("match" :: v :: s :: (flatPairs ps ++ [x])) =
        opFromTokens ("match" :: v :: s :: flatPairs ps)) :=
  ⟨opFromTokens_unknown, opFromTokens_tooFew, opFromTokens_surplus,
   opFromTokens_match_dropOdd⟩

theorem C8_witness :
    ("nop" ∉ knownOps) ∧ opFromTokens ["nop"] = none ∧
    (("set", 2) ∈ opArity) ∧ opFromTokens ["set", "a"] = none ∧
    opFromTokens ["exit", "junk"] = opFromTokens ["exit"] := by
  refine ⟨by decide, ?_, by decide, ?_, ?_⟩
  · exact C8_parse_errors.1 "nop" [] (by decide)
  · exact C8_parse_errors.2.1 "set" 2 ["a"] (by decide) (by decide)
  · have h := C8_parse_errors.2.2.1 "exit" 0 ["junk"] (by decide) (by decide)
    simpa using h

/-! ### Children-index lemmas (C4) -/

theorem keyMem_cons (k0 : Nat) (s : List Nat) (rest : List (Nat × List Nat)) (k : Nat) :
    keyMem ((k0, s) :: rest) k = (k0 == k || keyMem rest k) := by
  simp [keyMem]

theorem addChild_cons_hit (k0 p c : Nat) (s : List Nat) (rest : List (Nat × List Nat))
    (h : k0 = p) :
    addChild ((k0, s) :: rest) p c = (k0, setInsert s c) :: rest := by
  simp [addChild, h]

theorem addChild_cons_miss (k0 p c : Nat) (s : List Nat) (rest : List (Nat × List Nat))
    (h : ¬ k0 = p) :
    addChild ((k0, s) :: rest) p c = (k0, s) :: addChild rest p c := by
  simp [addChild, h]

theorem keyMem_addChild_of (p c k : Nat) :
    ∀ ch : List (Nat × List Nat),
      keyMem ch k = true → keyMem (addChild ch p c) k = true := by
  intro ch
  induction ch with
  | nil => intro hk; simp [keyMem] at hk
  | cons e rest ih =>
    rcases e with ⟨k0, s⟩
    intro hk
    by_cases h : k0 = p
    · rw [addChild_cons_hit k0 p c s rest h, keyMem_cons]
      rw [keyMem_cons] at hk
      exact hk
    · rw [addChild_cons_miss k0 p c s rest h, keyMem_cons, Bool.or_eq_true]
      rw [keyMem_cons, Bool.or_eq_true] at hk
      rcases hk with h1 | h2
      · exact Or.inl h1
      · exact Or.inr (ih h2)

theorem keyMem_addChild_self (p c : Nat) :
    ∀ ch : List (Nat × List Nat), keyMem (addChild ch p c) p = true := by
  intro ch
  induction ch with
  | nil => simp [keyMem, addChild]
  | cons e rest ih =>
    rcases e with ⟨k0, s⟩
    by_cases h : k0 = p
    · rw [addChild_cons_hit k0 p c s rest h, keyMem_cons, Bool.or_eq_true]
      exact Or.inl (by simp [h])
    · rw [addChild_cons_miss k0 p c s rest h, keyMem_cons, Bool.or_eq_true]
      exact Or.inr ih

theorem keyMem_addChild_inv (p c k : Nat) :
    ∀ ch : List (Nat × List Nat),
      keyMem (addChild ch p c) k = true → keyMem ch k = true ∨ k = p := by
  intro ch
  induction ch with
  | nil =>
    intro hk
    simp only [addChild, keyMem, List.any_cons, List.any_nil, Bool.or_false,
      beq_iff_eq] at hk
    exact Or.inr hk.symm
  | cons e rest ih =>
    rcases e with ⟨k0, s⟩
    intro hk
    by_cases h : k0 = p
    · rw [addChild_cons_hit k0 p c s rest h, keyMem_cons] at hk
      rw [keyMem_cons]
      exact Or.inl hk
    · rw [addChild_cons_miss k0 p c s rest h, keyMem_cons, Bool.or_eq_true] at hk
      rcases hk with h1 | h2
      · exact Or.inl (by rw [keyMem_cons, Bool.or_eq_true]; exact Or.inl h1)
      · rcases ih h2 with h3 | h3
        · exact Or.inl (by rw [keyMem_cons, Bool.or_eq_true]; exact Or.inr h3)
        · exact Or.inr h3

theorem keyMem_rewriteCh (eqs : List (Nat × Nat)) (ch : List (Nat × List Nat)) (k : Nat) :
    keyMem (rewriteCh eqs ch) k = keyMem ch k := by
  simp [keyMem, rewriteCh, List.any_map, Function.comp_def]

theorem ccGo_keys_mono (repo : Repo) (rf : Nat) :
    ∀ (fuel : Nat) (ch : List (Nat × List Nat)) (eqs : List (Nat × Nat))
      (st : List (Nat × Nat)) (chF : List (Nat × List Nat)) (eqsF : List (Nat × Nat)),
      ccGo repo rf fuel ch eqs st = some (chF, eqsF) →
      ∀ k, keyMem ch k = true → keyMem chF k = true := by
  intro fuel
  induction fuel with
  | zero => intro ch eqs st chF eqsF h; exact Option.noConfusion h
  | succ f ih =>
    intro ch eqs st chF eqsF h k hk
    cases st with
    | nil =>
      simp only [ccGo, Option.some.injEq, Prod.mk.injEq] at h
      obtain ⟨rfl, rfl⟩ := h
      exact hk
    | cons pr rest =>
      rcases pr with ⟨c, i⟩
      simp only [ccGo] at h
      split at h
      · exact ih _ _ _ _ _ h k hk
      · split at h
        · exact Option.noConfusion h
        · split at h
          · exact ih _ _ _ _ _ h k (keyMem_addChild_of _ _ _ _ hk)
          · exact ih _ _ _ _ _ h k (keyMem_addChild_of _ _ _ _ hk)

theorem ccGo_stack_future (repo : Repo) (rf : Nat) :
    ∀ (fuel : Nat) (ch : List (Nat × List Nat)) (eqs : List (Nat × Nat))
      (st : List (Nat × Nat)) (chF : List (Nat × List Nat)) (eqsF : List (Nat × Nat)),
      ccGo repo rf fuel ch eqs st = some (chF, eqsF) →
      ∀ c i, (c, i) ∈ st → ∀ j, i ≤ j → ∀ p, (repo.parents c)[j]? = some p →
        ∃ p2 b, replaceFn repo.replaceRef rf p = some (p2, b) ∧ keyMem chF p2 = true := by
  intro fuel
  induction fuel with
  | zero => intro ch eqs st chF eqsF h; exact Option.noConfusion h
  | succ f ih =>
    intro ch eqs st chF eqsF h c i hmem j hij p hp
    cases st with
    | nil => simp at hmem
    | cons pr rest =>
      rcases pr with ⟨c0, i0⟩
      simp only [ccGo] at h
      split at h
      next hnone =>
        rcases List.mem_cons.mp hmem with heq | hmemr
        · rw [Prod.mk.injEq] at heq
          obtain ⟨rfl, rfl⟩ := heq
          have hlen : (repo.parents c).length ≤ i := List.getElem?_eq_none_iff.mp hnone
          rw [List.getElem?_eq_none (Nat.le_trans hlen hij)] at hp
          exact Option.noConfusion hp
        · exact ih _ _ _ _ _ h c i hmemr j hij p hp
      next p0 hp0 =>
        split at h
        next => exact Option.noConfusion h
        next p2 repl hrep =>
          split at h
          next hkm =>
            rcases List.mem_cons.mp hmem with heq | hmemr
            · rw [Prod.mk.injEq] at heq
              obtain ⟨rfl, rfl⟩ := heq
              rcases Nat.lt_or_ge i j with hlt | hge
              · exact ih _ _ _ _ _ h c (i + 1) (List.mem_cons_self _ _) j hlt p hp
              · have hji : j = i := Nat.le_antisymm hge hij
                subst hji
                rw [hp0] at hp
                obtain rfl : p0 = p := Option.some.inj hp
                exact ⟨p2, repl, hrep,
                  ccGo_keys_mono repo rf f _ _ _ _ _ h p2 (keyMem_addChild_self p2 c ch)⟩
            · exact ih _ _ _ _ _ h c i (List.mem_cons_of_mem _ hmemr) j hij p hp
          next hkm =>
            rcases List.mem_cons.mp hmem with heq | hmemr
            · rw [Prod.mk.injEq] at heq
              obtain ⟨rfl, rfl⟩ := heq
              rcases Nat.lt_or_ge i j with hlt | hge
              · exact ih _ _ _ _ _ h c (i + 1)
                  (List.mem_cons_of_mem _ (List.mem_cons_self _ _)) j hlt p hp
              · have hji : j = i := Nat.le_antisymm hge hij
                subst hji
                rw [hp0] at hp
                obtain rfl : p0 = p := Option.some.inj hp
                exact ⟨p2, repl, hrep,
                  ccGo_keys_mono repo rf f _ _ _ _ _ h p2 (keyMem_addChild_self p2 c ch)⟩
            · exact ih _ _ _ _ _ h c i
                (List.mem_cons_of_mem _ (List.mem_cons_of_mem _ hmemr)) j hij p hp

theorem ccGo_final_processed (repo : Repo) (rf : Nat) :
    ∀ (fuel : Nat) (ch : List (Nat × List Nat)) (eqs : List (Nat × Nat))
      (st : List (Nat × Nat)) (chF : List (Nat × List Nat)) (eqsF : List (Nat × Nat)),
      ccGo repo rf fuel ch eqs st = some (chF, eqsF) →
      (∀ k, keyMem ch k = true → (∃ pr ∈ st, pr.1 = k) ∨ ProcessedIn repo rf ch k) →
      (∀ pr ∈ st, ∀ j, j < pr.2 → ∀ p, (repo.parents pr.1)[j]? = some p →
        ∃ p2 b, replaceFn repo.replaceRef rf p = some (p2, b) ∧ keyMem ch p2 = true) →
      ∀ k, keyMem chF k = true → ProcessedIn repo rf chF k := by
  intro fuel
  induction fuel with
  | zero => intro ch eqs st chF eqsF h; exact Option.noConfusion h
  | succ f ih =>
    intro ch eqs st chF eqsF h hkeys hpart
    cases st with
    | nil =>
      simp only [ccGo, Option.some.injEq, Prod.mk.injEq] at h
      obtain ⟨rfl, rfl⟩ := h
      intro k hk
      rcases hkeys k hk with ⟨pr, hpr, _⟩ | hproc
      · simp at hpr
      · exact hproc
    | cons pr0 rest =>
      rcases pr0 with ⟨c0, i0⟩
      simp only [ccGo] at h
      split at h
      next hnone =>
        refine ih _ _ _ _ _ h ?_ ?_
        · intro k hk
          rcases hkeys k hk with ⟨pr, hpr, hpk⟩ | hproc
          · rcases List.mem_cons.mp hpr with heq | hmemr
            · subst heq
              obtain rfl : c0 = k := hpk
              right
              intro p hp
              obtain ⟨n, hn, rfl⟩ := List.getElem_of_mem hp
              have hlen : (repo.parents c0).length ≤ i0 := List.getElem?_eq_none_iff.mp hnone
              exact hpart (c0, i0) (List.mem_cons_self _ _) n (Nat.lt_of_lt_of_le hn hlen)
                _ (List.getElem?_eq_getElem hn)
            · exact Or.inl ⟨pr, hmemr, hpk⟩
          · exact Or.inr hproc
        · intro pr hpr j hj p hp
          exact hpart pr (List.mem_cons_of_mem _ hpr) j hj p hp
      next p0 hp0 =>
        split at h
        next => exact Option.noConfusion h
        next p2 repl hrep =>
          split at h
          next hkm =>
            refine ih _ _ _ _ _ h ?_ ?_
            · intro k hk
              have hkey_ch : keyMem ch k = true := by
                rcases keyMem_addChild_inv p2 c0 k ch hk with h1 | rfl
                · exact h1
                · exact hkm
              rcases hkeys k hkey_ch with ⟨pr, hpr, hpk⟩ | hproc
              · rcases List.mem_cons.mp hpr with heq | hmemr
                · left
                  refine ⟨(c0, i0 + 1), List.mem_cons_self _ _, ?_⟩
                  rw [heq] at hpk
                  exact hpk
                · exact Or.inl ⟨pr, List.mem_cons_of_mem _ hmemr, hpk⟩
              · right
                intro q hq
                obtain ⟨q2, qb, hq2, hqk⟩ := hproc q hq
                exact ⟨q2, qb, hq2, keyMem_addChild_of p2 c0 q2 ch hqk⟩
            · intro pr hpr j hj p hp
              rcases List.mem_cons.mp hpr with heq | hmemr
              · subst heq
                have hj2 : j < i0 + 1 := hj
                rcases Nat.lt_or_ge j i0 with hlt | hge
                · obtain ⟨q2, qb, hq2, hqk⟩ :=
                    hpart (c0, i0) (List.mem_cons_self _ _) j hlt p hp
                  exact ⟨q2, qb, hq2, keyMem_addChild_of p2 c0 q2 ch hqk⟩
                · obtain rfl : j = i0 := by omega
                  rw [hp0] at hp
                  obtain rfl : p0 = p := Option.some.inj hp
                  exact ⟨p2, repl, hrep, keyMem_addChild_self p2 c0 ch⟩
              · obtain ⟨q2, qb, hq2, hqk⟩ := hpart pr (List.mem_cons_of_mem _ hmemr) j hj p hp
                exact ⟨q2, qb, hq2, keyMem_addChild_of p2 c0 q2 ch hqk⟩
          next hkm =>
            refine ih _ _ _ _ _ h ?_ ?_
            · intro k hk
              rcases keyMem_addChild_inv p2 c0 k ch hk with hk1 | heq2
              · rcases hkeys k hk1 with ⟨pr, hpr, hpk⟩ | hproc
                · rcases List.mem_cons.mp hpr with heq | hmemr
                  · left
                    refine ⟨(c0, i0 + 1),
                      List.mem_cons_of_mem _ (List.mem_cons_self _ _), ?_⟩
                    rw [heq] at hpk
                    exact hpk
                  · exact Or.inl ⟨pr,
                      List.mem_cons_of_mem _ (List.mem_cons_of_mem _ hmemr), hpk⟩
                · right
                  intro q hq
                  obtain ⟨q2, qb, hq2, hqk⟩ := hproc q hq
                  exact ⟨q2, qb, hq2, keyMem_addChild_of p2 c0 q2 ch hqk⟩
              · exact Or.inl ⟨(p2, 0), List.mem_cons_self _ _, heq2.symm⟩
            · intro pr hpr j hj p hp
              rcases List.mem_cons.mp hpr with heq | hpr2
              · subst heq
                have hj2 : j < 0 := hj
                omega
              · rcases List.mem_cons.mp hpr2 with heq | hmemr
                · subst heq
                  have hj2 : j < i0 + 1 := hj
                  rcases Nat.lt_or_ge j i0 with hlt | hge
                  · obtain ⟨q2, qb, hq2, hqk⟩ :=
                      hpart (c0, i0) (List.mem_cons_self _ _) j hlt p hp
                    exact ⟨q2, qb, hq2, keyMem_addChild_of p2 c0 q2 ch hqk⟩
                  · obtain rfl : j = i0 := by omega
                    rw [hp0] at hp
                    obtain rfl : p0 = p := Option.some.inj hp
                    exact ⟨p2, repl, hrep, keyMem_addChild_self p2 c0 ch⟩
                · obtain ⟨q2, qb, hq2, hqk⟩ :=
                    hpart pr (List.mem_cons_of_mem _ hmemr) j hj p hp
                  exact ⟨q2, qb, hq2, keyMem_addChild_of p2 c0 q2 ch hqk⟩

/-- C4 (amended): after the children index is built from the terminal
commit, every canonical commit identity reachable from the canonical `end`
via at least one parent edge appears as a key of the index.  The terminal
commit itself is not among the keys unless it is reachable from itself
through a parent edge (in an acyclic repository it never is) — see the
counterexample. -/
theorem C4_children_keys (repo : Repo) (rf df : Nat) (endC : Nat)
    (ch : List (Nat × List Nat)) (e c p p2 : Nat) (fl b2 : Bool)
    (hcc : collectChildren repo rf df endC = some ch)
    (hend : replaceFn repo.replaceRef rf endC = some (e, fl))
    (hreach : ReachC repo rf e c)
    (hp : p ∈ repo.parents c)
    (hp2 : replaceFn repo.replaceRef rf p = some (p2, b2)) :
    keyMem ch p2 = true := by
  unfold collectChildren at hcc
  split at hcc
  · exact Option.noConfusion hcc
  next e2 fl2 hend2 =>
    rw [hend] at hend2
    obtain ⟨rfl, rfl⟩ : e = e2 ∧ fl = fl2 := by
      have := Option.some.inj hend2
      exact ⟨congrArg Prod.fst this, congrArg Prod.snd this⟩
    split at hcc
    next hgo => exact Option.noConfusion hcc
    next chF eqsF hgo =>
      obtain rfl : rewriteCh eqsF chF = ch := Option.some.inj hcc
      have hfinal : ∀ k, keyMem chF k = true → ProcessedIn repo rf chF k := by
        refine ccGo_final_processed repo rf df _ _ _ _ _ hgo ?_ ?_
        · intro k hk
          simp [keyMem] at hk
        · intro pr hpr j hj q hq
          have : pr = (e, 0) := by simpa using hpr
          subst this
          have hj2 : j < 0 := hj
          omega
      have hroot : ProcessedIn repo rf chF e := by
        intro q hq
        obtain ⟨n, hn, rfl⟩ := List.getElem_of_mem hq
        exact ccGo_stack_future repo rf df _ _ _ _ _ hgo e 0 (by simp) n (Nat.zero_le n)
          _ (List.getElem?_eq_getElem hn)
      have hproc : ProcessedIn repo rf chF c := by
        clear hp hp2
        induction hreach with
        | refl => exact hroot
        | step hr hpmem hrepl ih2 =>
          obtain ⟨q2, qb, hq2, hqk⟩ := ih2 _ hpmem
          rw [hrepl] at hq2
          have := Option.some.inj hq2
          obtain rfl : _ = q2 := congrArg Prod.fst this
          exact hfinal _ hqk
      obtain ⟨q2, qb, hq2, hqk⟩ := hproc p hp
      rw [hp2] at hq2
      obtain rfl : p2 = q2 := congrArg Prod.fst (Option.some.inj hq2)
      rw [keyMem_rewriteCh]
      exact hqk

theorem C4_witness :
    collectChildren repoChain 5 20 2 = some [(1, [2]), (0, [1])] ∧
    keyMem [(1, [2]), (0, [1])] 1 = true ∧ keyMem [(1, [2]), (0, [1])] 0 = true := by
  refine ⟨rfl, ?_, ?_⟩
  · exact C4_children_keys repoChain 5 20 2 [(1, [2]), (0, [1])] 2 2 1 1 false false
      rfl rfl (ReachC.refl 2) (by decide) rfl
  · exact C4_children_keys repoChain 5 20 2 [(1, [2]), (0, [1])] 2 1 0 0 false false
      rfl rfl (ReachC.step (ReachC.refl 2) (by decide) rfl) (by decide) rfl

/-- C4 counterexample: in the two-commit repository where `end` (commit 1)
has the single parent 0, the terminal commit 1 is reachable from itself
(trivially, as the claim says) yet is not a key of the built index — only
parents ever become keys. -/
theorem C4_counterexample :
    collectChildren repoC4 5 20 1 = some [(0, [1])] ∧
    ReachC repoC4 5 1 1 ∧
    keyMem [(0, [1])] 1 = false :=
  ⟨rfl, ReachC.refl 1, rfl⟩

/-! ### `min_by_key` lemmas (C1) -/

theorem minByGo_le_self : ∀ (l : List (Nat × Nat)) (cur : Nat × Nat),
    (minByGo cur l).2 ≤ cur.2 := by
  intro l
  induction l with
  | nil => intro cur; exact Nat.le_refl _
  | cons q rest ih =>
    intro cur
    simp only [minByGo]
    by_cases hq : q.2 < cur.2
    · rw [if_pos hq]
      exact Nat.le_trans (ih q) (Nat.le_of_lt hq)
    · rw [if_neg hq]
      exact ih cur

theorem minByGo_mem : ∀ (l : List (Nat × Nat)) (cur : Nat × Nat),
    minByGo cur l = cur ∨ minByGo cur l ∈ l := by
  intro l
  induction l with
  | nil => intro cur; exact Or.inl rfl
  | cons q rest ih =>
    intro cur
    simp only [minByGo]
    by_cases hq : q.2 < cur.2
    · rw [if_pos hq]
      rcases ih q with h1 | h1
      · exact Or.inr (by rw [h1]; exact List.mem_cons_self _ _)
      · exact Or.inr (List.mem_cons_of_mem _ h1)
    · rw [if_neg hq]
      rcases ih cur with h1 | h1
      · exact Or.inl h1
      · exact Or.inr (List.mem_cons_of_mem _ h1)

theorem minByGo_le_all : ∀ (l : List (Nat × Nat)) (cur q : Nat × Nat),
    q ∈ cur :: l → (minByGo cur l).2 ≤ q.2 := by
  intro l
  induction l with
  | nil =>
    intro cur q hq
    have h : q = cur := by simpa using hq
    subst h
    exact Nat.le_refl _
  | cons q0 rest ih =>
    intro cur q hq
    simp only [minByGo]
    by_cases h : q0.2 < cur.2
    · rw [if_pos h]
      rcases List.mem_cons.mp hq with heq | hq2
      · subst heq
        exact Nat.le_trans (minByGo_le_self rest q0) (Nat.le_of_lt h)
      · rcases List.mem_cons.mp hq2 with heq | hq3
        · rw [heq]
          exact minByGo_le_self rest q0
        · exact ih q0 q (List.mem_cons_of_mem _ hq3)
    · rw [if_neg h]
      rcases List.mem_cons.mp hq with heq | hq2
      · rw [heq]
        exact minByGo_le_self rest cur
      · rcases List.mem_cons.mp hq2 with heq | hq3
        · subst heq
          exact Nat.le_trans (minByGo_le_self rest cur) (Nat.le_of_not_lt h)
        · exact ih cur q (List.mem_cons_of_mem _ hq3)

theorem minByGo_key_eq : ∀ (l : List (Nat × Nat)) (cur : Nat × Nat),
    (minByGo cur l).2 = cur.2 → minByGo cur l = cur := by
  intro l
  induction l with
  | nil => intro cur _; rfl
  | cons q rest ih =>
    intro cur h
    simp only [minByGo] at h ⊢
    by_cases hq : q.2 < cur.2
    · rw [if_pos hq] at h ⊢
      have := minByGo_le_self rest q
      omega
    · rw [if_neg hq] at h ⊢
      exact ih cur h

theorem minByGo_find : ∀ (l : List (Nat × Nat)) (cur : Nat × Nat),
    List.find? (fun q => decide (q.2 ≤ (minByGo cur l).2)) (cur :: l) =
      some (minByGo cur l) := by
  intro l
  induction l with
  | nil =>
    intro cur
    simp [minByGo]
  | cons q0 rest ih =>
    intro cur
    simp only [minByGo]
    by_cases hq : q0.2 < cur.2
    · simp only [if_pos hq]
      have hlt : (minByGo q0 rest).2 < cur.2 :=
        Nat.lt_of_le_of_lt (minByGo_le_self rest q0) hq
      rw [List.find?_cons_of_neg _ (by simp; omega)]
      exact ih q0
    · simp only [if_neg hq]
      by_cases hc : cur.2 ≤ (minByGo cur rest).2
      · have heq : (minByGo cur rest).2 = cur.2 :=
          Nat.le_antisymm (minByGo_le_self rest cur) hc
        have hM : minByGo cur rest = cur := minByGo_key_eq rest cur heq
        rw [hM]
        exact List.find?_cons_of_pos _ (by simp)
      · have hlt : (minByGo cur rest).2 < cur.2 := Nat.lt_of_not_le hc
        have hcq : cur.2 ≤ q0.2 := Nat.le_of_not_lt hq
        have hih := ih cur
        rw [List.find?_cons_of_neg _ (by simp; omega)] at hih
        rw [List.find?_cons_of_neg _ (by simp; omega),
          List.find?_cons_of_neg _ (by simp; omega)]
        exact hih

theorem ftGo_inv (repo : Repo) (rf : Nat) (commits : List Nat) (t : Nat) :
    ∀ (fuel : Nat) (st : List (Nat × Nat)) (dist : Nat) (checked : List Nat)
      (found fl : List (Nat × Nat)),
      ftGo repo rf commits fuel st dist checked found = some fl →
      (∀ q ∈ found, q.1 ∈ commits ∧ ReachC repo rf t q.1) →
      (∀ pr ∈ st, ReachC repo rf t pr.1) →
      ∀ q ∈ fl, q.1 ∈ commits ∧ ReachC repo rf t q.1 := by
  intro fuel
  induction fuel with
  | zero => intro st dist checked found fl h; exact Option.noConfusion h
  | succ f ih =>
    intro st dist checked found fl h hfound hstack
    cases st with
    | nil =>
      obtain rfl : found = fl := Option.some.inj h
      exact hfound
    | cons pr0 rest =>
      rcases pr0 with ⟨cur, i⟩
      simp only [ftGo] at h
      have hfound2 : ∀ q ∈ (if commits.contains cur then found ++ [(cur, dist)] else found),
          q.1 ∈ commits ∧ ReachC repo rf t q.1 := by
        by_cases hc : commits.contains cur = true
        · rw [if_pos hc]
          intro q hq
          rcases List.mem_append.mp hq with hq1 | hq2
          · exact hfound q hq1
          · have heq : q = (cur, dist) := by simpa using hq2
            subst heq
            exact ⟨by simpa using hc, hstack (cur, i) (List.mem_cons_self _ _)⟩
        · rw [if_neg hc]
          exact hfound
      split at h
      next hnone =>
        exact ih _ _ _ _ _ h hfound2 (fun pr hpr => hstack pr (List.mem_cons_of_mem _ hpr))
      next p hp =>
        split at h
        next => exact Option.noConfusion h
        next p2 fl2 hrep =>
          split at h
          next hchk =>
            refine ih _ _ _ _ _ h hfound2 ?_
            intro pr2 hpr2
            rcases List.mem_cons.mp hpr2 with heq | hm
            · rw [heq]
              exact hstack (cur, i) (List.mem_cons_self _ _)
            · exact hstack pr2 (List.mem_cons_of_mem _ hm)
          next hchk =>
            refine ih _ _ _ _ _ h hfound2 ?_
            intro pr2 hpr2
            rcases List.mem_cons.mp hpr2 with heq | hm
            · rw [heq]
              have hpm : p ∈ repo.parents cur := by
                obtain ⟨hlt, rfl⟩ := List.getElem?_eq_some.mp hp
                exact List.getElem_mem hlt
              exact ReachC.step (hstack (cur, i) (List.mem_cons_self _ _)) hpm hrep
            · rcases List.mem_cons.mp hm with heq2 | hm2
              · rw [heq2]
                exact hstack (cur, i) (List.mem_cons_self _ _)
              · exact hstack pr2 (List.mem_cons_of_mem _ hm2)

/-- C1 (amended): when `find_tag` succeeds it returns a candidate child
that occurs among the (redirection-resolved) tag's canonical ancestors and
that was recorded with the minimum recorded DFS depth; among recordings of
that minimum depth the one recorded first wins (`min_by_key` keeps the
first minimum).  The recorded depth is the stack depth at which the DFS
first discovers a node — with the visited-set pruning it can exceed the
shortest ancestor-distance, so the returned child need not be closest (see
the counterexample). -/
theorem C1_findTag_min_recorded (repo : Repo) (rf df tagC : Nat) (commits : List Nat)
    (c : Nat) (h : findTag repo rf df tagC commits = some (some c)) :
    ∃ (t : Nat) (fl : Bool) (found : List (Nat × Nat)),
      replaceFn repo.replaceRef rf tagC = some (t, fl) ∧
      ftGo repo rf commits df [(t, 0)] 1 [] [] = some found ∧
      c ∈ commits ∧ ReachC repo rf t c ∧
      ∃ pr : Nat × Nat, pr.1 = c ∧ pr ∈ found ∧ (∀ q ∈ found, pr.2 ≤ q.2) ∧
        List.find? (fun q => decide (q.2 ≤ pr.2)) found = some pr := by
  unfold findTag at h
  split at h
  · exact Option.noConfusion h
  next t fl hrep =>
    split at h
    next => exact Option.noConfusion h
    next found hgo =>
      have hmin : minByDist found = some c := Option.some.inj h
      cases found with
      | nil => exact Option.noConfusion hmin
      | cons p0 rest =>
        have hMc : (minByGo p0 rest).1 = c := Option.some.inj hmin
        have hmemM : minByGo p0 rest ∈ p0 :: rest := by
          rcases minByGo_mem rest p0 with h1 | h1
          · rw [h1]; exact List.mem_cons_self _ _
          · exact List.mem_cons_of_mem _ h1
        have hinv := ftGo_inv repo rf commits t df _ _ _ _ _ hgo
          (by intro q hq; simp at hq)
          (by
            intro pr hpr
            have heq : pr = (t, 0) := by simpa using hpr
            rw [heq]
            exact ReachC.refl t)
        refine ⟨t, fl, p0 :: rest, hrep, hgo, ?_, ?_,
          ⟨minByGo p0 rest, hMc, hmemM, fun q hq => minByGo_le_all rest p0 q hq,
            minByGo_find rest p0⟩⟩
        · rw [← hMc]
          exact (hinv _ hmemM).1
        · rw [← hMc]
          exact (hinv _ hmemM).2

theorem C1_witness :
    findTag repoC1 5 50 0 [3, 2] = some (some 2) ∧
    (∃ (t : Nat) (fl : Bool) (found : List (Nat × Nat)),
      replaceFn repoC1.replaceRef 5 0 = some (t, fl) ∧
      ftGo repoC1 5 [3, 2] 50 [(t, 0)] 1 [] [] = some found ∧
      2 ∈ [3, 2] ∧ ReachC repoC1 5 t 2 ∧
      ∃ pr : Nat × Nat, pr.1 = 2 ∧ pr ∈ found ∧ (∀ q ∈ found, pr.2 ≤ q.2) ∧
        List.find? (fun q => decide (q.2 ≤ pr.2)) found = some pr) :=
  ⟨rfl, C1_findTag_min_recorded repoC1 5 50 0 [3, 2] 2 rfl⟩

/-- C1 counterexample: in `repoC1` the candidate child 3 is a direct parent
of the tag commit 0 (ancestor-distance 1) while the candidate 2 only occurs
at ancestor-distance 2, yet `find_tag` returns 2 — the DFS discovers 3 deep
inside the parent-0 subtree first, and the visited set prevents the later,
shorter discovery, so the returned child does not have minimal shortest
ancestor-distance. -/
theorem C1_counterexample :
    findTag repoC1 5 50 0 [3, 2] = some (some 2) ∧
    ancWithin repoC1 5 1 0 3 = true ∧
    ancWithin repoC1 5 1 0 2 = false :=
  ⟨rfl, rfl, rfl⟩
